import Mathlib

/-!
# Verification of the btfs core (src/btfs.cc)

A shallow embedding of the scheduling, decomposition and namespace-building
logic of `src/btfs.cc`, together with theorems settling the specification
claims about it.

Modelling conventions:
* C machine integers (`int`, `off_t`, `size_type`) are modelled as `Nat`.
  Every loop variable in the embedded code is nonnegative in the source
  (offsets, sizes, piece indices, byte counters), and the claims quantify
  over mathematical values, so unbounded naturals are the faithful
  idealisation; no claim is about overflow behaviour.
* C loops are embedded as structurally recursive functions on an explicit
  fuel argument chosen large enough that exhaustion is unreachable for the
  loop in question (each wrapper fixes the fuel; lemmas carry the easy
  sufficiency invariant).  This keeps every definition kernel-executable.
* The libtorrent engine is the spec's external collaborator (§6).  The
  few engine functions the embedded code consumes (`map_file`,
  `piece_size`, `num_pieces`, `have_piece`) are modelled from libtorrent's
  documented behaviour; `have_piece` is an arbitrary boolean valuation.
-/

set_option autoImplicit false

namespace btfs

/-! ## Torrent geometry (external collaborator) -/

/-- Piece geometry of a torrent: `pl` is `piece_length()`, `total` is
`total_size()`.  libtorrent guarantees a positive piece length. -/
structure Geometry where
  pl : Nat
  total : Nat
  plPos : 0 < pl

/-- `torrent_info::num_pieces()`: total size divided by piece length,
rounded up. -/
def numPieces (g : Geometry) : Nat :=
  (g.total + g.pl - 1) / g.pl

/-- `torrent_info::piece_size(i)`: the last piece may be shorter; all other
pieces have length `piece_length()`. -/
def pieceSize (g : Geometry) (i : Nat) : Nat :=
  if i = numPieces g - 1 then g.total - (numPieces g - 1) * g.pl else g.pl

/-- `libtorrent::peer_request`: a byte range inside one piece. -/
structure peer_request where
  piece : Nat
  start : Nat
  length : Nat
deriving DecidableEq

/-- `torrent_info::map_file(index, offset, size)` for a file whose first
byte sits at torrent offset `base`: locate the torrent byte `base + off`
inside its piece, clamping the length at the end of the torrent.  (External
collaborator; this is libtorrent's documented mapping.) -/
def map_file (g : Geometry) (base off sz : Nat) : peer_request :=
  let goff := base + off
  if g.total ≤ goff then
    { piece := numPieces g, start := 0, length := 0 }
  else
    { piece := goff / g.pl
      start := goff % g.pl
      length := if g.total < goff + sz then g.total - goff else sz }

/-! ## Read decomposition (`Read::Read`) -/

/-- Modelled from the spec: the `Part` record declared in `btfs.h` (the
header is not under `src/`): the piece-aligned slice of a read request
(`part`, a `peer_request` whose length is already clamped to the piece
boundary), the destination buffer position (`buf`, modelled as the offset
from the start of the caller's buffer), and the `filled` flag, `false` at
construction. -/
structure Part where
  part : peer_request
  buf : Nat
  filled : Bool
deriving DecidableEq

/-- The clamp in `Read::Read`:
`part.length = min(piece_size(part.piece) - part.start, part.length)`. -/
def clampLen (g : Geometry) (pr : peer_request) : Nat :=
  min (pieceSize g pr.piece - pr.start) pr.length

/-- The loop body of `Read::Read(buf, index, offset, size)`, with explicit
fuel.  One iteration maps `(offset, size)` through `map_file`, clamps the
part length at the piece boundary, then advances `offset`, `size` and
`buf` by that length.  A zero-length part can only arise from malformed
geometry (the file extending past the torrent's total size); there the C
loop would not terminate, and the embedding stops instead. -/
def readLoop (g : Geometry) (base fsize : Nat) :
    Nat → Nat → Nat → Nat → List Part
  | 0, _, _, _ => []
  | fuel + 1, off, sz, buf =>
    if 0 < sz ∧ off < fsize then
      if 0 < clampLen g (map_file g base off sz) then
        { part := { piece := (map_file g base off sz).piece
                    start := (map_file g base off sz).start
                    length := clampLen g (map_file g base off sz) }
          buf := buf
          filled := false } ::
          readLoop g base fsize fuel
            (off + clampLen g (map_file g base off sz))
            (sz - clampLen g (map_file g base off sz))
            (buf + clampLen g (map_file g base off sz))
      else []
    else []

/-- `Read::Read(buf, index, offset, size)`: the list of `Part`s the
constructor pushes onto `parts`.  `base` is the file's first byte offset in
the torrent, `fsize` is `file_at(index).size`.  Each genuine iteration
consumes at least one byte of `sz`, so `sz` itself is sufficient fuel. -/
def readRequestParts (g : Geometry) (base fsize off sz : Nat) : List Part :=
  readLoop g base fsize sz off sz 0

/-- The `parts` list together with the per-part `filled` flags: the state a
`Read` tracker owns (class `Read` of `btfs.h`, behaviour in `btfs.cc`). -/
structure Read where
  parts : List Part

/-- `Read::Read` as a tracker constructor. -/
def Read.create (g : Geometry) (base fsize off sz : Nat) : Read :=
  { parts := readRequestParts g base fsize off sz }

/-- `Read::size()`: the sum of all part lengths. -/
def partsSize (ps : List Part) : Nat :=
  ps.foldl (fun s p => s + p.part.length) 0

/-- `Read::size()` on a tracker. -/
def Read.size (r : Read) : Nat := partsSize r.parts

/-- `Read::finished()`: every part's `filled` flag is set. -/
def Read.finished (r : Read) : Bool := r.parts.all (·.filled)

/-- `Read::trigger()`: the pieces for which `read_piece` is requested —
those parts whose piece the engine already reports as downloaded. -/
def Read.trigger (hv : Nat → Bool) (r : Read) : List Nat :=
  (r.parts.filter (fun p => hv p.part.piece)).map (·.part.piece)

/-- `Read::read()` up to its return, executed while the caller holds the
global mutex: if `size() <= 0` it returns `0` at once; otherwise it
triggers, re-centres the window, and tests `finished()`.  The alert
handlers also need the mutex, so no `filled` flag can change between the
tracker's construction and this test: `finished()` sees the constructor's
flags.  The result is the returned byte count paired with whether the
`pthread_cond_wait` loop is entered. -/
def Read.run (r : Read) : Nat × Bool :=
  if r.size = 0 then (0, false)
  else (r.size, !r.finished)

/-- `btfs_read(path, buf, size, offset)` for the file at torrent offset
`base` with size `fsize`: builds the tracker with the length clamped to
`min(size, file_at(index).size)` — note: *not* clamped to the bytes
remaining after `offset` — and runs it. -/
def btfs_read (g : Geometry) (base fsize off sz : Nat) : Nat × Bool :=
  (Read.create g base fsize off (min sz fsize)).run

/-- The parts `btfs_read` decomposes a request into. -/
def btfsParts (g : Geometry) (base fsize off sz : Nat) : List Part :=
  readRequestParts g base fsize off (min sz fsize)

/-! ## Decomposition invariants, as executable predicates -/

/-- A parts list starting at torrent byte `goff` and buffer offset `boff`
is a contiguous, piece-aligned chain: each part sits exactly at the running
torrent offset, stays inside its piece, has positive length, is unfilled,
and the offsets advance by the part's length (no gaps, no overlaps). -/
def chainB (g : Geometry) : Nat → Nat → List Part → Bool
  | _, _, [] => true
  | goff, boff, p :: ps =>
    decide (p.part.piece = goff / g.pl) &&
    decide (p.part.start = goff % g.pl) &&
    decide (0 < p.part.length) &&
    decide (p.part.start + p.part.length ≤ pieceSize g p.part.piece) &&
    decide (p.buf = boff) &&
    decide (p.filled = false) &&
    chainB g (goff + p.part.length) (boff + p.part.length) ps

/-- Piece indices strictly ascending along the parts list. -/
def ascendingB : List Part → Bool
  | [] => true
  | [_] => true
  | p :: q :: ps => decide (p.part.piece < q.part.piece) && ascendingB (q :: ps)

/-! ## The sliding-window scheduler (`move_to_next_unfinished`, `jump`, `advance`) -/

/-- The engine state the scheduler consults: `np` is
`get_torrent_info().num_pieces()`, `pl` is `piece_length()`, and `hv i` is
`have_piece(i)`. -/
structure Sched where
  np : Nat
  pl : Nat
  hv : Nat → Bool
  plPos : 0 < pl

/-- The loop of `move_to_next_unfinished(piece)`, with explicit fuel: scan
from `piece` to `num_pieces() - 1` for the first piece not yet downloaded.
Starting from `p`, the scan takes at most `np` steps, so `np` is
sufficient fuel (exhaustion can only happen at `np ≤ p`, where the C loop
also answers false). -/
def mtnuLoop (t : Sched) : Nat → Nat → Option Nat
  | 0, _ => none
  | fuel + 1, p =>
    if p < t.np then
      if t.hv p then mtnuLoop t fuel (p + 1) else some p
    else none

/-- `move_to_next_unfinished(piece)`: `some p` means the C function returns
true having advanced `piece` to `p`; `none` means it returns false. -/
def move_to_next_unfinished (t : Sched) (piece : Nat) : Option Nat :=
  mtnuLoop t t.np piece

/-- Result of the urgent-window loop of `jump`: the final value of `tail`,
the `piece_priority` calls made (in order), and whether the `for` loop ran
to completion (`completed = false` means the `return` inside the loop
fired). -/
structure ULoop where
  tail : Nat
  calls : List (Nat × Nat)
  completed : Bool

/-- The urgent-window loop of `jump`:
`for (b = 0; b < 0x200000; b += pl) { if (!mtnu(tail)) return; piece_priority(tail++, 7); }`
with explicit fuel.  Since `pl ≥ 1`, the loop body runs at most `0x200000`
times, so `0x200000 + 1` steps (body runs plus the final test) are
sufficient fuel; the exhaustion branch is unreachable from the wrapper and
conservatively reports an early exit. -/
def urgentLoop (t : Sched) : Nat → Nat → Nat → ULoop
  | 0, _, tail => { tail := tail, calls := [], completed := false }
  | fuel + 1, b, tail =>
    if b < 0x200000 then
      match move_to_next_unfinished t tail with
      | none => { tail := tail, calls := [], completed := false }
      | some t2 =>
        let r := urgentLoop t fuel (b + t.pl) (t2 + 1)
        { tail := r.tail, calls := (t2, 7) :: r.calls, completed := r.completed }
    else { tail := tail, calls := [], completed := true }

/-- The normal-window loop of `jump`:
`for (o = (tail - piece) * pl; o < size + pl - 1; o += pl) piece_priority(tail++, 1);`
with explicit fuel.  `o` grows by `pl ≥ 1` each round, so `size + pl`
steps are sufficient fuel. -/
def normalLoop (t : Sched) (size : Nat) : Nat → Nat → Nat → List (Nat × Nat)
  | 0, _, _ => []
  | fuel + 1, o, tail =>
    if o < size + t.pl - 1 then
      (tail, 1) :: normalLoop t size fuel (o + t.pl) (tail + 1)
    else []

/-- The observable outcome of one `jump(piece, size)` call: the value
written to the global `cursor` (`none` when the initial
`move_to_next_unfinished` fails and `cursor` is left untouched), the
`piece_priority(i, 7)` calls of the urgent loop, the `piece_priority(i, 1)`
calls of the normal loop, the value of `tail` after the urgent loop, and
whether the urgent loop completed. -/
structure JumpResult where
  cursor : Option Nat
  urgent : List (Nat × Nat)
  normal : List (Nat × Nat)
  tailAfterUrgent : Nat
  completed : Bool

/-- `jump(piece, size)`. -/
def jump (t : Sched) (piece size : Nat) : JumpResult :=
  match move_to_next_unfinished t piece with
  | none =>
    { cursor := none, urgent := [], normal := []
      tailAfterUrgent := piece, completed := false }
  | some tail0 =>
    let u := urgentLoop t (0x200000 + 1) 0 tail0
    if u.completed then
      { cursor := some tail0, urgent := u.calls
        normal := normalLoop t size (size + t.pl) ((u.tail - piece) * t.pl) u.tail
        tailAfterUrgent := u.tail, completed := true }
    else
      { cursor := some tail0, urgent := u.calls, normal := []
        tailAfterUrgent := u.tail, completed := false }

/-- `advance()`: `jump(cursor, 0)`. -/
def advance (t : Sched) (cursor : Nat) : JumpResult :=
  jump t cursor 0

/-- The value of the global `cursor` after one `advance()` call. -/
def advanceCursor (t : Sched) (cursor : Nat) : Nat :=
  match (advance t cursor).cursor with
  | some c => c
  | none => cursor

/-- The cursor after a sequence of `advance()` calls, one per engine
snapshot (the `have_piece` valuation current at that call). -/
def runAdvances (np pl : Nat) (hpl : 0 < pl) (hvs : List (Nat → Bool))
    (c0 : Nat) : Nat :=
  hvs.foldl (fun c hv => advanceCursor { np := np, pl := pl, hv := hv, plPos := hpl } c) c0

/-! ## The namespace builder (`setup`, `handle_metadata_received_alert`)

Paths are modelled in component form: the C code tokenises
`file_at(i).path` at `/` (`strtok(p, "/")`, empty tokens skipped), so a
file path is a `List String` of its nonempty components, the key
`"/" + path` of the `files` map is that component list, and the keys of
the `dirs` map are the proper prefixes of file paths (`[]` standing for
the root `"/"`). -/

/-- One entry of `torrent_info`'s file list: the tokenised path and the
file size. -/
structure TorrentFile where
  path : List String
  size : Nat

/-- The metadata `setup()` reads via `handle.get_torrent_info()`. -/
structure TorrentInfo where
  files : List TorrentFile

/-- The two global maps built by `setup()`:
`std::map<std::string, std::pair<file_entry, int>> files` (value modelled
as the pair of the entry's size and the file index) and
`std::map<std::string, std::set<std::string>> dirs` (modelled as the
membership predicate of each key's child set). -/
structure NS where
  files : List String → Option (Nat × Nat)
  dirs : List String → String → Bool

/-- The inner `strtok` loop of `setup()` for one file: walking the
components of `path` with accumulator `parent` (initially `""`, i.e.
`[]`), insert each component into `dirs[parent]` and extend `parent`. -/
def addDirs (d : List String → String → Bool) :
    List String → List String → (List String → String → Bool)
  | _, [] => d
  | parent, x :: rest =>
    addDirs (fun p c => if p = parent ∧ c = x then true else d p c)
      (parent ++ [x]) rest

/-- The body of `setup()`'s per-file loop for file `i`: the `dirs`
insertions followed by `files["/" + path] = make_pair(file_at(i), i)`. -/
def setupFile (ns : NS) (entry : Nat × TorrentFile) : NS :=
  { files := fun k =>
      if k = entry.2.path then some (entry.2.size, entry.1) else ns.files k
    dirs := addDirs ns.dirs [] entry.2.path }

/-- The effect of `setup()` on the two maps: fold the per-file body over
the indexed file list. -/
def setupNS (ti : TorrentInfo) (ns : NS) : NS :=
  ti.files.enum.foldl setupFile ns

/-- The engine-directed calls `setup()` makes, besides building the maps. -/
inductive EngineCall where
  | set_download_limit (rate : Nat)
  | set_upload_limit (rate : Nat)
  | file_priority (index : Nat) (prio : Nat)
deriving DecidableEq

/-- The calls `setup()` issues, in order: the two rate limits, then
`file_priority(i, 0)` for every file. -/
def setupCalls (ti : TorrentInfo) : List EngineCall :=
  EngineCall.set_download_limit (5 * 1024 * 1024 / 8) ::
  EngineCall.set_upload_limit (5 * 1024 * 1024 / 8) ::
  ti.files.enum.map (fun entry => EngineCall.file_priority entry.1 0)

/-- `handle_metadata_received_alert`: takes the lock, stores the handle,
and calls `setup()` unconditionally — there is no "namespace already
built" test in the handler or in `setup()`.  Observable outcome: the new
maps and the engine calls issued. -/
def handle_metadata_received_alert (ti : TorrentInfo) (ns : NS) :
    NS × List EngineCall :=
  (setupNS ti ns, setupCalls ti)

/-! ## Concrete instances used by counterexamples and witnesses -/

/-- Piece length 16384, a single 50000-byte file: the spec's worked
scenario. -/
def g50 : Geometry := ⟨16384, 50000, by decide⟩

/-- Piece length 16384, torrent of 200 bytes holding two 100-byte files;
the first file occupies torrent bytes `[0, 100)`. -/
def gMulti : Geometry := ⟨16384, 200, by decide⟩

/-- One 16384-byte piece holding (among others) a 100-byte file at offset
0. -/
def gOne : Geometry := ⟨16384, 16384, by decide⟩

/-- Engine state: every piece reported as downloaded. -/
def hvAll : Nat → Bool := fun _ => true

/-- Engine state: no piece downloaded yet. -/
def hvNone : Nat → Bool := fun _ => false

/-- Engine state: exactly piece 0 downloaded. -/
def hvZero : Nat → Bool := fun p => decide (p = 0)

/-- A single 2 MiB piece (`piece_length = 0x200000`), nothing downloaded:
the urgent loop of `jump` then runs for exactly one iteration. -/
def tOnePiece : Sched := ⟨1, 0x200000, hvNone, by decide⟩

/-- Two 2 MiB pieces, nothing downloaded. -/
def tTwoPiece : Sched := ⟨2, 0x200000, hvNone, by decide⟩

/-- Two 16384-byte pieces, piece 0 downloaded. -/
def tSmall : Sched := ⟨2, 16384, hvZero, by decide⟩

/-- Two 16384-byte pieces, both downloaded. -/
def tAllHave : Sched := ⟨2, 16384, hvAll, by decide⟩

/-- Metadata with a single file `/a` of 7 bytes. -/
def tiOne : TorrentInfo := ⟨[⟨["a"], 7⟩]⟩

/-- The empty namespace state (before any `setup()`). -/
def nsEmpty : NS := ⟨fun _ => none, fun _ _ => false⟩

/-! ## Arithmetic facts about the piece geometry -/

theorem numPieces_eq (g : Geometry) (h : 0 < g.total) :
    numPieces g = (g.total - 1) / g.pl + 1 := by
  have hpl := g.plPos
  unfold numPieces
  have he : g.total + g.pl - 1 = (g.total - 1) + g.pl := by omega
  rw [he, Nat.add_div_right _ hpl]

theorem total_le_numPieces_mul (g : Geometry) :
    g.total ≤ numPieces g * g.pl := by
  have hpl := g.plPos
  rcases Nat.eq_zero_or_pos g.total with h | h
  · simp [h]
  · rw [numPieces_eq g h]
    have hdm : g.pl * ((g.total - 1) / g.pl) + (g.total - 1) % g.pl
        = g.total - 1 := Nat.div_add_mod _ _
    have hlt : (g.total - 1) % g.pl < g.pl := Nat.mod_lt _ hpl
    have hmul : ((g.total - 1) / g.pl + 1) * g.pl
        = g.pl * ((g.total - 1) / g.pl) + g.pl := by ring
    omega

theorem div_lt_numPieces (g : Geometry) {a : Nat} (h : a < g.total) :
    a / g.pl < numPieces g := by
  have hpl := g.plPos
  have hT : 0 < g.total := by omega
  rw [numPieces_eq g hT]
  have : a / g.pl ≤ (g.total - 1) / g.pl := Nat.div_le_div_right (by omega)
  omega

/-- For a torrent byte `a` inside the torrent, the size of `a`'s piece is
the in-piece offset of `a` plus the number of bytes from `a` to the
nearer of the next piece boundary and the end of the torrent. -/
theorem pieceSize_eq (g : Geometry) {a : Nat} (h : a < g.total) :
    pieceSize g (a / g.pl) = a % g.pl + min (g.pl - a % g.pl) (g.total - a) := by
  have hpl := g.plPos
  have hT : 0 < g.total := by omega
  have hdm : g.pl * (a / g.pl) + a % g.pl = a := Nat.div_add_mod a g.pl
  have hr : a % g.pl < g.pl := Nat.mod_lt _ hpl
  have hnp : numPieces g - 1 = (g.total - 1) / g.pl := by
    rw [numPieces_eq g hT]
    exact Nat.add_sub_cancel _ _
  have hdmT : g.pl * ((g.total - 1) / g.pl) + (g.total - 1) % g.pl
      = g.total - 1 := Nat.div_add_mod _ _
  have hrT : (g.total - 1) % g.pl < g.pl := Nat.mod_lt _ hpl
  have hq_le : a / g.pl ≤ (g.total - 1) / g.pl := Nat.div_le_div_right (by omega)
  unfold pieceSize
  rw [hnp]
  by_cases hc : a / g.pl = (g.total - 1) / g.pl
  · rw [if_pos hc, ← hc, Nat.mul_comm (a / g.pl) g.pl]
    rw [← hc] at hdmT
    generalize g.pl * (a / g.pl) = Y at hdm hdmT ⊢
    omega
  · rw [if_neg hc]
    have hlt : a / g.pl + 1 ≤ (g.total - 1) / g.pl := by omega
    have hmono : g.pl * (a / g.pl + 1) ≤ g.pl * ((g.total - 1) / g.pl) :=
      Nat.mul_le_mul_left _ hlt
    have hsucc : g.pl * (a / g.pl + 1) = g.pl * (a / g.pl) + g.pl :=
      Nat.mul_succ _ _
    omega

/-- `map_file` on a byte strictly inside the torrent. -/
theorem map_file_lt (g : Geometry) {base off : Nat} (sz : Nat)
    (h : base + off < g.total) :
    map_file g base off sz =
      { piece := (base + off) / g.pl
        start := (base + off) % g.pl
        length := min sz (g.total - (base + off)) } := by
  unfold map_file
  rw [if_neg (by omega)]
  have : (if g.total < base + off + sz then g.total - (base + off) else sz)
      = min sz (g.total - (base + off)) := by
    split <;> omega
  rw [this]

theorem map_file_piece (g : Geometry) {base off : Nat} (sz : Nat)
    (h : base + off < g.total) :
    (map_file g base off sz).piece = (base + off) / g.pl := by
  rw [map_file_lt g sz h]

theorem map_file_start (g : Geometry) {base off : Nat} (sz : Nat)
    (h : base + off < g.total) :
    (map_file g base off sz).start = (base + off) % g.pl := by
  rw [map_file_lt g sz h]

/-- The closed form of the clamped part length for a byte inside the
torrent: the distance to the closest of the next piece boundary, the end
of the torrent, and the end of the request. -/
theorem clampLen_map (g : Geometry) {base off : Nat} (sz : Nat)
    (h : base + off < g.total) :
    clampLen g (map_file g base off sz) =
      min (min (g.pl - (base + off) % g.pl) (g.total - (base + off)))
        (min sz (g.total - (base + off))) := by
  rw [map_file_lt g sz h]
  unfold clampLen
  have := pieceSize_eq g h
  simp only []
  omega

theorem clampLen_pos (g : Geometry) {base off : Nat} (sz : Nat)
    (h : base + off < g.total) (hsz : 0 < sz) :
    0 < clampLen g (map_file g base off sz) := by
  rw [clampLen_map g sz h]
  have hr : (base + off) % g.pl < g.pl := Nat.mod_lt _ g.plPos
  omega

/-! ## Decomposition lemmas -/

theorem partsSize_foldl (ps : List Part) : ∀ n : Nat,
    ps.foldl (fun s p => s + p.part.length) n = n + partsSize ps := by
  induction ps with
  | nil => intro n; simp [partsSize]
  | cons p ps ih =>
    intro n
    simp only [List.foldl_cons, partsSize] at ih ⊢
    rw [ih (n + p.part.length), ih (0 + p.part.length)]
    omega

theorem partsSize_cons (p : Part) (ps : List Part) :
    partsSize (p :: ps) = p.part.length + partsSize ps := by
  have h : partsSize (p :: ps)
      = ps.foldl (fun s p => s + p.part.length) (0 + p.part.length) := rfl
  rw [h, partsSize_foldl]
  omega

/-- The decomposition loop stops at once when the offset has reached the
file end. -/
theorem readLoop_of_le {g : Geometry} {base fsize fuel off sz buf : Nat}
    (h : fsize ≤ off) : readLoop g base fsize fuel off sz buf = [] := by
  cases fuel with
  | zero => rfl
  | succ n =>
    simp only [readLoop]
    rw [if_neg (by omega)]

/-- A nonempty decomposition means the loop guard held. -/
theorem readLoop_guard {g : Geometry} {base fsize fuel off sz buf : Nat}
    (h : readLoop g base fsize fuel off sz buf ≠ []) :
    0 < sz ∧ off < fsize := by
  cases fuel with
  | zero => exact absurd rfl h
  | succ n =>
    by_cases hg : 0 < sz ∧ off < fsize
    · exact hg
    · refine absurd ?_ h
      simp only [readLoop]
      rw [if_neg hg]

/-- The first part of a nonempty chain sits at the running offset's
piece. -/
theorem chainB_head_piece {g : Geometry} {a b : Nat} {q : Part}
    {ps : List Part} (h : chainB g a b (q :: ps) = true) :
    q.part.piece = a / g.pl := by
  simp only [chainB, Bool.and_eq_true, decide_eq_true_eq] at h
  exact h.1.1.1.1.1.1

/-- Main decomposition invariant (claim C1's property, relative to the
loop): starting inside a file that ends at the torrent's end, the loop
produces a contiguous piece-aligned chain of parts whose lengths sum to
`min sz (fsize - off)`, with strictly ascending piece indices. -/
theorem readLoop_spec (g : Geometry) (base fsize : Nat)
    (hend : base + fsize = g.total) :
    ∀ fuel off sz buf, sz ≤ fuel →
      partsSize (readLoop g base fsize fuel off sz buf) = min sz (fsize - off) ∧
      chainB g (base + off) buf (readLoop g base fsize fuel off sz buf) = true ∧
      ascendingB (readLoop g base fsize fuel off sz buf) = true := by
  intro fuel
  induction fuel with
  | zero =>
    intro off sz buf hsz
    have hsz0 : sz = 0 := by omega
    subst hsz0
    simp [readLoop, partsSize, chainB, ascendingB]
  | succ n ih =>
    intro off sz buf hsz
    by_cases hg : 0 < sz ∧ off < fsize
    · have hgoff : base + off < g.total := by omega
      have hlen := clampLen_map g sz hgoff
      have hr : (base + off) % g.pl < g.pl := Nat.mod_lt _ g.plPos
      have hdm : g.pl * ((base + off) / g.pl) + (base + off) % g.pl = base + off :=
        Nat.div_add_mod _ _
      have hpos := clampLen_pos g sz hgoff hg.1
      have hps := pieceSize_eq g hgoff
      have hstep : readLoop g base fsize (n + 1) off sz buf =
          { part := { piece := (base + off) / g.pl
                      start := (base + off) % g.pl
                      length := clampLen g (map_file g base off sz) }
            buf := buf
            filled := false } ::
            readLoop g base fsize n
              (off + clampLen g (map_file g base off sz))
              (sz - clampLen g (map_file g base off sz))
              (buf + clampLen g (map_file g base off sz)) := by
        simp only [readLoop]
        rw [if_pos hg, if_pos hpos, map_file_piece g sz hgoff,
          map_file_start g sz hgoff]
      set L := clampLen g (map_file g base off sz) with hL
      have hrec := ih (off + L) (sz - L) (buf + L) (by omega)
      have hLsz : L ≤ sz := by omega
      have hLoff : L ≤ fsize - off := by omega
      refine ⟨?_, ?_, ?_⟩
      · rw [hstep, partsSize_cons]
        have h1 := hrec.1
        dsimp only
        omega
      · rw [hstep]
        have hchain : chainB g (base + off + L) (buf + L)
            (readLoop g base fsize n (off + L) (sz - L) (buf + L)) = true := by
          have := hrec.2.1
          rwa [← Nat.add_assoc] at this
        simp only [chainB, Bool.and_eq_true, decide_eq_true_eq]
        exact ⟨⟨⟨⟨⟨⟨trivial, trivial⟩, hpos⟩, by omega⟩, trivial⟩, trivial⟩, hchain⟩
      · rw [hstep]
        cases hrest : readLoop g base fsize n (off + L) (sz - L) (buf + L) with
        | nil => rfl
        | cons q t =>
          simp only [ascendingB, Bool.and_eq_true, decide_eq_true_eq]
          constructor
          · -- the next part starts exactly at the next piece boundary
            have hguard := @readLoop_guard g base fsize n (off + L) (sz - L)
              (buf + L) (by rw [hrest]; exact List.cons_ne_nil _ _)
            have hLA : L = g.pl - (base + off) % g.pl := by omega
            have hpieceq : q.part.piece = (base + (off + L)) / g.pl := by
              have := hrec.2.1
              rw [hrest] at this
              exact chainB_head_piece this
            have hmul : g.pl * ((base + off) / g.pl + 1)
                = g.pl * ((base + off) / g.pl) + g.pl := by ring
            have hb : base + (off + L) = g.pl * ((base + off) / g.pl + 1) := by
              rw [hmul]
              omega
            rw [hpieceq, hb, Nat.mul_div_cancel_left _ g.plPos]
            omega
          · have := hrec.2.2
            rwa [hrest] at this
    · have hnil : readLoop g base fsize (n + 1) off sz buf = [] := by
        simp only [readLoop]
        rw [if_neg hg]
      rw [hnil]
      refine ⟨?_, rfl, rfl⟩
      simp only [partsSize, List.foldl_nil]
      omega

/-- Every part the decomposition loop produces has positive length and a
clear `filled` flag. -/
theorem readLoop_mem (g : Geometry) (base fsize : Nat) :
    ∀ (fuel off sz buf : Nat) (p : Part),
      p ∈ readLoop g base fsize fuel off sz buf →
      0 < p.part.length ∧ p.filled = false := by
  intro fuel
  induction fuel with
  | zero =>
    intro off sz buf p hp
    simp [readLoop] at hp
  | succ n ih =>
    intro off sz buf p hp
    by_cases hg : 0 < sz ∧ off < fsize
    · simp only [readLoop] at hp
      rw [if_pos hg] at hp
      by_cases hpos : 0 < clampLen g (map_file g base off sz)
      · rw [if_pos hpos] at hp
        rcases List.mem_cons.mp hp with hp | hp
        · subst hp
          exact ⟨hpos, rfl⟩
        · exact ih _ _ _ p hp
      · rw [if_neg hpos] at hp
        simp at hp
    · simp only [readLoop] at hp
      rw [if_neg hg] at hp
      simp at hp

theorem partsSize_zero_iff {ps : List Part}
    (h : ∀ p ∈ ps, 0 < p.part.length) : partsSize ps = 0 ↔ ps = [] := by
  cases ps with
  | nil => simp [partsSize]
  | cons p t =>
    have hp := h p (List.mem_cons_self _ _)
    rw [partsSize_cons]
    exact iff_of_false (by omega) (by simp)

/-! ## Claims C1, C3, C6, C7: the read path -/

/-- C1 (amended): for a file that ends at the torrent's total size (in
particular for a single-file torrent), for every offset `off < fsize` and
every requested length `sz`, the decomposition performed by `Read::Read`
as invoked by `btfs_read` produces parts whose lengths sum to
`min sz (fsize - off)`, covering the byte range contiguously with no gaps
or overlaps, each part inside one piece, in strictly ascending piece
order.  (The original claim, for arbitrary files of a multi-file torrent,
is refuted by `read_decomposition_cex`: for a file that is followed by
further torrent data the final part may run past the file's end.) -/
theorem read_decomposition_complete (g : Geometry) (base fsize off sz : Nat)
    (hend : base + fsize = g.total) (hoff : off < fsize) :
    partsSize (btfsParts g base fsize off sz) = min sz (fsize - off) ∧
    chainB g (base + off) 0 (btfsParts g base fsize off sz) = true ∧
    ascendingB (btfsParts g base fsize off sz) = true := by
  have h := readLoop_spec g base fsize hend (min sz fsize) off (min sz fsize) 0
    (Nat.le_refl _)
  unfold btfsParts readRequestParts
  refine ⟨?_, h.2.1, h.2.2⟩
  rw [h.1]
  omega

/-- C1 (counterexample to the claim as stated): in a 200-byte torrent with
`piece_length = 16384` holding two 100-byte files, reading the first file
(`base = 0`, `fsize = 100`) at offset 90 with requested length 100 yields
parts summing to 100 bytes, not `min(100, 100 - 90) = 10`: the single part
runs 90 bytes past the file's end into the second file's data. -/
theorem read_decomposition_cex :
    partsSize (btfsParts gMulti 0 100 90 100) ≠ min 100 (100 - 90) := by decide

/-- C1 witness: the amended theorem applied to the spec's worked scenario
(`piece_length = 16384`, single 50000-byte file, offset 0, length
50000). -/
theorem read_decomposition_witness :
    partsSize (btfsParts g50 0 50000 0 50000) = min 50000 (50000 - 0) ∧
    chainB g50 (0 + 0) 0 (btfsParts g50 0 50000 0 50000) = true ∧
    ascendingB (btfsParts g50 0 50000 0 50000) = true :=
  read_decomposition_complete g50 0 50000 0 50000 (by decide) (by decide)

/-- C3 (amended): a read returns without entering the condition-variable
wait exactly when its decomposition is empty.  In particular a read with
at least one part always enters the wait, even when every piece it touches
is already downloaded: `Read::trigger` only issues asynchronous
`read_piece` requests, and the resulting alerts cannot be processed while
the reading thread holds the global lock, so `finished()` still sees every
`filled` flag clear when the wait loop is first tested.  (The original
claim — already-downloaded pieces let the read skip the wait — is refuted
by `read_wait_cex`.) -/
theorem read_wait_iff_parts (g : Geometry) (base fsize off sz : Nat) :
    (btfs_read g base fsize off sz).2 = !(btfsParts g base fsize off sz).isEmpty := by
  cases hps : btfsParts g base fsize off sz with
  | nil =>
    have hsz : (Read.create g base fsize off (min sz fsize)).size = 0 := by
      show partsSize (btfsParts g base fsize off sz) = 0
      rw [hps]
      rfl
    unfold btfs_read Read.run
    rw [if_pos hsz]
    rfl
  | cons p t =>
    have hpmem : p ∈ btfsParts g base fsize off sz := by
      rw [hps]
      exact List.mem_cons_self _ _
    have hmem := readLoop_mem g base fsize _ _ _ _ p hpmem
    have hszpos : ¬ (Read.create g base fsize off (min sz fsize)).size = 0 := by
      show ¬ partsSize (btfsParts g base fsize off sz) = 0
      rw [hps, partsSize_cons]
      omega
    have hfin : (Read.create g base fsize off (min sz fsize)).finished = false := by
      show (btfsParts g base fsize off sz).all (·.filled) = false
      rw [hps]
      simp [hmem.2]
    unfold btfs_read Read.run
    rw [if_neg hszpos, hfin]
    rfl

/-- C3 (counterexample to the claim as stated): a 1-byte read of a file in
a single-piece torrent whose only piece is already downloaded — every part
lies in a downloaded piece, `trigger()` requests that piece, and the read
still enters the condition-variable wait. -/
theorem read_wait_cex :
    ((btfsParts gOne 0 100 0 1).all fun p => hvAll p.part.piece) = true ∧
    (Read.create gOne 0 100 0 (min 1 100)).trigger hvAll = [0] ∧
    (btfs_read gOne 0 100 0 1).2 = true := by decide

/-- C6 (amended): on the 50000-byte file with `piece_length = 16384`,
decomposing a read at offset 49999 with requested length 1000 clamps the
length to 1 and yields exactly one part in piece 3 — at in-piece offset
847 (not 15983 as the claim states): byte 49999 sits 847 bytes into piece
3, which starts at byte `3 * 16384 = 49152`. -/
theorem scenario_offset_49999 :
    btfsParts g50 0 50000 49999 1000 =
      [{ part := { piece := 3, start := 847, length := 1 }
         buf := 0, filled := false }] := by decide

/-- C6 (counterexample to the claim as stated): the single part's in-piece
offset is not 15983. -/
theorem scenario_offset_49999_cex :
    (btfsParts g50 0 50000 49999 1000).map (fun p => p.part.start) ≠ [15983] := by
  decide

/-- C7: for every read whose offset is at or beyond the file's size, the
decomposition produces zero parts and `Read::read` returns 0 immediately
— `size() <= 0` short-circuits before `trigger`, `jump` and the wait loop,
and the caller receives an empty result, not an error. -/
theorem read_at_eof (g : Geometry) (base fsize off sz : Nat) (h : fsize ≤ off) :
    btfsParts g base fsize off sz = [] ∧
    btfs_read g base fsize off sz = (0, false) := by
  have hnil : btfsParts g base fsize off sz = [] := readLoop_of_le h
  refine ⟨hnil, ?_⟩
  have hsz : (Read.create g base fsize off (min sz fsize)).size = 0 := by
    show partsSize (btfsParts g base fsize off sz) = 0
    rw [hnil]
    rfl
  unfold btfs_read Read.run
  rw [if_pos hsz]

/-- C7 witness: the spec's scenario `offset = 50000` (the file size). -/
theorem read_at_eof_witness :
    btfsParts g50 0 50000 50000 1000 = [] ∧
    btfs_read g50 0 50000 50000 1000 = (0, false) :=
  read_at_eof g50 0 50000 50000 1000 (by decide)

/-! ## Scheduler lemmas -/

theorem mtnuLoop_some (t : Sched) :
    ∀ (fuel p c : Nat), mtnuLoop t fuel p = some c →
      p ≤ c ∧ c < t.np ∧ t.hv c = false := by
  intro fuel
  induction fuel with
  | zero =>
    intro p c h
    simp [mtnuLoop] at h
  | succ n ih =>
    intro p c h
    simp only [mtnuLoop] at h
    by_cases hp : p < t.np
    · rw [if_pos hp] at h
      by_cases hv : t.hv p = true
      · rw [if_pos hv] at h
        have := ih (p + 1) c h
        exact ⟨by omega, this.2.1, this.2.2⟩
      · rw [if_neg hv] at h
        have hc := Option.some.inj h
        subst hc
        rw [Bool.not_eq_true] at hv
        exact ⟨Nat.le_refl _, hp, hv⟩
    · rw [if_neg hp] at h
      simp at h

theorem mtnu_some (t : Sched) {piece c : Nat}
    (h : move_to_next_unfinished t piece = some c) :
    piece ≤ c ∧ c < t.np ∧ t.hv c = false :=
  mtnuLoop_some t t.np piece c h

theorem mtnuLoop_least (t : Sched) :
    ∀ (fuel p c : Nat), p ≤ c → c < t.np → t.hv c = false →
      (∀ q, p ≤ q → q < c → t.hv q = true) → c < p + fuel →
      mtnuLoop t fuel p = some c := by
  intro fuel
  induction fuel with
  | zero =>
    intro p c h1 _ _ _ h5
    omega
  | succ n ih =>
    intro p c h1 h2 h3 h4 h5
    have hp : p < t.np := by omega
    simp only [mtnuLoop]
    rw [if_pos hp]
    by_cases hv : t.hv p = true
    · rw [if_pos hv]
      have hpc : p ≠ c := by
        intro he
        rw [he, h3] at hv
        exact absurd hv (by simp)
      exact ih (p + 1) c (by omega) h2 h3
        (fun q hq1 hq2 => h4 q (by omega) hq2) (by omega)
    · rw [if_neg hv]
      have hpc : p = c := by
        by_contra hne
        exact hv (h4 p (Nat.le_refl _) (by omega))
      rw [hpc]

theorem mtnu_least (t : Sched) {s c : Nat} (h1 : s ≤ c) (h2 : c < t.np)
    (h3 : t.hv c = false) (h4 : ∀ q, s ≤ q → q < c → t.hv q = true) :
    move_to_next_unfinished t s = some c :=
  mtnuLoop_least t t.np s c h1 h2 h3 h4 (by omega)

theorem mtnuLoop_none (t : Sched) :
    ∀ (fuel p : Nat), (∀ q, p ≤ q → q < t.np → t.hv q = true) →
      mtnuLoop t fuel p = none := by
  intro fuel
  induction fuel with
  | zero =>
    intro p _
    rfl
  | succ n ih =>
    intro p h
    simp only [mtnuLoop]
    by_cases hp : p < t.np
    · rw [if_pos hp, if_pos (h p (Nat.le_refl _) hp)]
      exact ih (p + 1) (fun q h1 h2 => h q (by omega) h2)
    · rw [if_neg hp]

theorem mtnu_none (t : Sched) {s : Nat}
    (h : ∀ q, s ≤ q → q < t.np → t.hv q = true) :
    move_to_next_unfinished t s = none :=
  mtnuLoop_none t t.np s h

/-- `jump` writes to `cursor` exactly the result of the initial
`move_to_next_unfinished` (and leaves it untouched when that fails). -/
theorem jump_cursor (t : Sched) (piece size : Nat) :
    (jump t piece size).cursor = move_to_next_unfinished t piece := by
  unfold jump
  cases h : move_to_next_unfinished t piece with
  | none => rfl
  | some c =>
    dsimp only
    split <;> rfl

theorem urgentLoop_tail_le (t : Sched) :
    ∀ (fuel b tail : Nat), tail ≤ (urgentLoop t fuel b tail).tail := by
  intro fuel
  induction fuel with
  | zero =>
    intro b tail
    exact Nat.le_refl _
  | succ n ih =>
    intro b tail
    simp only [urgentLoop]
    by_cases hb : b < 0x200000
    · rw [if_pos hb]
      cases h : move_to_next_unfinished t tail with
      | none => exact Nat.le_refl _
      | some c =>
        dsimp only
        have h1 := (mtnu_some t h).1
        have h2 := ih (b + t.pl) (c + 1)
        omega
    · rw [if_neg hb]

theorem urgentLoop_calls (t : Sched) :
    ∀ (fuel b tail : Nat) (x : Nat × Nat),
      x ∈ (urgentLoop t fuel b tail).calls →
      x.2 = 7 ∧ tail ≤ x.1 ∧ x.1 < (urgentLoop t fuel b tail).tail ∧ x.1 < t.np := by
  intro fuel
  induction fuel with
  | zero =>
    intro b tail x hx
    simp [urgentLoop] at hx
  | succ n ih =>
    intro b tail x hx
    simp only [urgentLoop] at hx ⊢
    by_cases hb : b < 0x200000
    · rw [if_pos hb] at hx ⊢
      cases h : move_to_next_unfinished t tail with
      | none =>
        rw [h] at hx
        simp at hx
      | some c =>
        rw [h] at hx
        dsimp only at hx ⊢
        have hc := mtnu_some t h
        have htl := urgentLoop_tail_le t n (b + t.pl) (c + 1)
        rcases List.mem_cons.mp hx with hx | hx
        · subst hx
          exact ⟨rfl, hc.1, by omega, hc.2.1⟩
        · have := ih (b + t.pl) (c + 1) x hx
          exact ⟨this.1, by omega, this.2.2.1, this.2.2.2⟩
    · rw [if_neg hb] at hx
      simp at hx

theorem normalLoop_calls (t : Sched) (size : Nat) :
    ∀ (fuel o tail : Nat) (y : Nat × Nat),
      y ∈ normalLoop t size fuel o tail →
      y.2 = 1 ∧ tail ≤ y.1 ∧ o + (y.1 - tail) * t.pl < size + t.pl - 1 := by
  intro fuel
  induction fuel with
  | zero =>
    intro o tail y hy
    simp [normalLoop] at hy
  | succ n ih =>
    intro o tail y hy
    simp only [normalLoop] at hy
    by_cases ho : o < size + t.pl - 1
    · rw [if_pos ho] at hy
      rcases List.mem_cons.mp hy with hy | hy
      · subst hy
        refine ⟨rfl, Nat.le_refl _, ?_⟩
        simp only [Nat.sub_self, Nat.zero_mul]
        omega
      · have hrec := ih (o + t.pl) (tail + 1) y hy
        refine ⟨hrec.1, by omega, ?_⟩
        have h3 := hrec.2.2
        have hk : y.1 - tail = (y.1 - (tail + 1)) + 1 := by
          have := hrec.2.1
          omega
        rw [hk, Nat.add_mul, Nat.one_mul]
        omega
    · rw [if_neg ho] at hy
      simp at hy

theorem normalLoop_length (t : Sched) (size : Nat) :
    ∀ (fuel o tail : Nat),
      size + t.pl - 1 ≤ o + fuel * t.pl →
      size + t.pl - 1 ≤ o + (normalLoop t size fuel o tail).length * t.pl := by
  intro fuel
  induction fuel with
  | zero =>
    intro o tail h
    simpa [normalLoop] using h
  | succ n ih =>
    intro o tail h
    simp only [normalLoop]
    by_cases ho : o < size + t.pl - 1
    · rw [if_pos ho]
      simp only [List.length_cons]
      have hmul : (n + 1) * t.pl = n * t.pl + t.pl := by
        rw [Nat.add_mul, Nat.one_mul]
      have hh : size + t.pl - 1 ≤ (o + t.pl) + n * t.pl := by omega
      have hrec := ih (o + t.pl) (tail + 1) hh
      have hlen : ((normalLoop t size n (o + t.pl) (tail + 1)).length + 1) * t.pl
          = (normalLoop t size n (o + t.pl) (tail + 1)).length * t.pl + t.pl := by
        rw [Nat.add_mul, Nat.one_mul]
      omega
    · rw [if_neg ho]
      simp only [List.length_nil, Nat.zero_mul]
      omega

/-- The value of `jump(s, n)` once the initial scan has found an
undownloaded piece `c`. -/
theorem jump_eq_some (t : Sched) (s n c : Nat)
    (h : move_to_next_unfinished t s = some c) :
    jump t s n =
      (if (urgentLoop t (0x200000 + 1) 0 c).completed then
        { cursor := some c
          urgent := (urgentLoop t (0x200000 + 1) 0 c).calls
          normal := normalLoop t n (n + t.pl)
            (((urgentLoop t (0x200000 + 1) 0 c).tail - s) * t.pl)
            (urgentLoop t (0x200000 + 1) 0 c).tail
          tailAfterUrgent := (urgentLoop t (0x200000 + 1) 0 c).tail
          completed := true }
      else
        { cursor := some c
          urgent := (urgentLoop t (0x200000 + 1) 0 c).calls
          normal := []
          tailAfterUrgent := (urgentLoop t (0x200000 + 1) 0 c).tail
          completed := false }) := by
  unfold jump
  rw [h]

/-- The value of `jump(s, n)` when every piece at or after `s` is
downloaded. -/
theorem jump_eq_none (t : Sched) (s n : Nat)
    (h : move_to_next_unfinished t s = none) :
    jump t s n =
      { cursor := none, urgent := [], normal := []
        tailAfterUrgent := s, completed := false } := by
  unfold jump
  rw [h]

/-! ## Claims C4, C5, C2, C10: the window recompute -/

/-- C4: for every call `jump(s, n)` (`recompute_window`): if some piece at
or after `s` is not yet downloaded, the cursor becomes the smallest such
piece index; if every piece at or after `s` is already downloaded, the
call is a no-op — the cursor is left untouched (`none`: the write to the
global `cursor` is never reached) and no `piece_priority` call is made. -/
theorem jump_cursor_spec (t : Sched) (s n : Nat) :
    (∀ c, s ≤ c → c < t.np → t.hv c = false →
      (∀ q, s ≤ q → q < c → t.hv q = true) →
      (jump t s n).cursor = some c) ∧
    ((∀ q, s ≤ q → q < t.np → t.hv q = true) →
      (jump t s n).cursor = none ∧ (jump t s n).urgent = [] ∧
        (jump t s n).normal = []) := by
  constructor
  · intro c h1 h2 h3 h4
    rw [jump_cursor]
    exact mtnu_least t h1 h2 h3 h4
  · intro h
    rw [jump_eq_none t s n (mtnu_none t h)]
    exact ⟨rfl, rfl, rfl⟩

/-- C4 witness: with pieces `{0, 1}` and only piece 0 downloaded, the
cursor jumps to piece 1; with both downloaded, the call is a no-op. -/
theorem jump_cursor_spec_witness :
    (jump tSmall 0 3).cursor = some 1 ∧
    ((jump tAllHave 0 3).cursor = none ∧ (jump tAllHave 0 3).urgent = [] ∧
      (jump tAllHave 0 3).normal = []) :=
  ⟨(jump_cursor_spec tSmall 0 3).1 1 (by decide) (by decide) (by decide)
      (fun q h1 h2 => by
        have hq : q = 0 := by omega
        rw [hq]
        rfl),
    (jump_cursor_spec tAllHave 0 3).2 (fun q _ _ => rfl)⟩

/-- C5: after `jump(s, n)`, every piece in the urgent sub-window is set to
priority 7 and every piece in the following normal sub-window to priority
1 (so each urgent piece has strictly higher priority than each normal
piece), every urgent index is strictly below every normal index (the two
windows never touch the same piece), and no piece with index below `s` has
its priority changed — every `piece_priority` call targets an index
at or above `s`. -/
theorem jump_priorities (t : Sched) (s n : Nat) :
    (∀ x ∈ (jump t s n).urgent, x.2 = 7 ∧ s ≤ x.1) ∧
    (∀ y ∈ (jump t s n).normal, y.2 = 1 ∧ s ≤ y.1) ∧
    (∀ x ∈ (jump t s n).urgent, ∀ y ∈ (jump t s n).normal, x.1 < y.1) := by
  cases h : move_to_next_unfinished t s with
  | none =>
    rw [jump_eq_none t s n h]
    refine ⟨?_, ?_, ?_⟩ <;> intro x hx <;> simp at hx
  | some c =>
    have hc := mtnu_some t h
    have htail := urgentLoop_tail_le t (0x200000 + 1) 0 c
    rw [jump_eq_some t s n c h]
    by_cases hcp : (urgentLoop t (0x200000 + 1) 0 c).completed
    · rw [if_pos hcp]
      refine ⟨?_, ?_, ?_⟩
      · intro x hx
        have hxx := urgentLoop_calls t (0x200000 + 1) 0 c x hx
        exact ⟨hxx.1, by omega⟩
      · intro y hy
        have hyy := normalLoop_calls t n (n + t.pl)
          (((urgentLoop t (0x200000 + 1) 0 c).tail - s) * t.pl)
          (urgentLoop t (0x200000 + 1) 0 c).tail y hy
        exact ⟨hyy.1, by omega⟩
      · intro x hx y hy
        have hxx := urgentLoop_calls t (0x200000 + 1) 0 c x hx
        have hyy := normalLoop_calls t n (n + t.pl)
          (((urgentLoop t (0x200000 + 1) 0 c).tail - s) * t.pl)
          (urgentLoop t (0x200000 + 1) 0 c).tail y hy
        omega
    · rw [if_neg hcp]
      refine ⟨?_, ?_, ?_⟩
      · intro x hx
        have hxx := urgentLoop_calls t (0x200000 + 1) 0 c x hx
        exact ⟨hxx.1, by omega⟩
      · intro y hy
        simp at hy
      · intro x hx y hy
        simp at hy

/-- C5 witness: `jump(0, 5)` on two undownloaded 2 MiB pieces sets piece 0
urgent and piece 1 normal. -/
theorem jump_priorities_witness :
    ((0, 7).2 = 7 ∧ 0 ≤ (0, 7).1) ∧ ((1, 1).2 = 1 ∧ 0 ≤ (1, 1).1) ∧
      (0, 7).1 < (1, 1).1 :=
  ⟨(jump_priorities tTwoPiece 0 5).1 (0, 7) (by decide),
   (jump_priorities tTwoPiece 0 5).2.1 (1, 1) (by decide),
   (jump_priorities tTwoPiece 0 5).2.2 (0, 7) (by decide) (1, 1) (by decide)⟩

/-- C2 (amended): whenever `jump(s, n)` runs its urgent loop to completion
(it does not run out of undownloaded pieces), the combined window — urgent
sub-window, skipped already-downloaded pieces, and normal sub-window —
extends to at least `n` bytes past the start piece `s`: the loop condition
`o < size + pl - 1` measures `o = (tail - piece) * pl` from the *request's
first piece*, not from the urgent sub-window's end.  The normal sub-window
alone therefore covers no bytes at all when the urgent sub-window already
spans the request (refuted claim: see `jump_normal_cex`). -/
theorem jump_window_span (t : Sched) (s n : Nat) (hn : 0 < n)
    (hcomp : (jump t s n).completed = true) :
    n ≤ ((jump t s n).tailAfterUrgent + (jump t s n).normal.length - s) * t.pl := by
  cases h : move_to_next_unfinished t s with
  | none =>
    rw [jump_eq_none t s n h] at hcomp
    simp at hcomp
  | some c =>
    have hc := mtnu_some t h
    have htail := urgentLoop_tail_le t (0x200000 + 1) 0 c
    rw [jump_eq_some t s n c h] at hcomp ⊢
    by_cases hcp : (urgentLoop t (0x200000 + 1) 0 c).completed
    · rw [if_pos hcp]
      dsimp only
      have hple := t.plPos
      have hfuel : n + t.pl - 1 ≤
          ((urgentLoop t (0x200000 + 1) 0 c).tail - s) * t.pl + (n + t.pl) * t.pl := by
        have h1 : n + t.pl ≤ (n + t.pl) * t.pl := Nat.le_mul_of_pos_right _ hple
        omega
      have hexit := normalLoop_length t n (n + t.pl)
        (((urgentLoop t (0x200000 + 1) 0 c).tail - s) * t.pl)
        (urgentLoop t (0x200000 + 1) 0 c).tail hfuel
      have hdist : ((urgentLoop t (0x200000 + 1) 0 c).tail - s) * t.pl +
          (normalLoop t n (n + t.pl)
            (((urgentLoop t (0x200000 + 1) 0 c).tail - s) * t.pl)
            (urgentLoop t (0x200000 + 1) 0 c).tail).length * t.pl =
          ((urgentLoop t (0x200000 + 1) 0 c).tail +
            (normalLoop t n (n + t.pl)
              (((urgentLoop t (0x200000 + 1) 0 c).tail - s) * t.pl)
              (urgentLoop t (0x200000 + 1) 0 c).tail).length - s) * t.pl := by
        rw [← Nat.add_mul]
        congr 1
        omega
      omega
    · rw [if_neg hcp] at hcomp
      simp at hcomp

/-- C2 (counterexample to the claim as stated): a torrent of two
undownloaded 2 MiB pieces, `jump(0, 1)` — read size 1 > 0, an undownloaded
piece exists at piece 0 — assigns an *empty* normal sub-window (the 2 MiB
urgent sub-window already covers the request), so the normal sub-window
covers 0 < 1 bytes beyond the urgent one. -/
theorem jump_normal_cex :
    (move_to_next_unfinished tTwoPiece 0).isSome = true ∧
    ¬ (1 ≤ (jump tTwoPiece 0 1).normal.length * tTwoPiece.pl) := by decide

/-- C2 witness: `jump(0, 5)` on two undownloaded 2 MiB pieces completes
its urgent loop and the combined window spans `2 * 2 MiB ≥ 5` bytes. -/
theorem jump_window_span_witness :
    5 ≤ ((jump tTwoPiece 0 5).tailAfterUrgent +
      (jump tTwoPiece 0 5).normal.length - 0) * tTwoPiece.pl :=
  jump_window_span tTwoPiece 0 5 (by decide) (by decide)

/-- C10 (amended): for every call `jump(s, n)` with `0 ≤ s < num_pieces`,
every index passed to `piece_priority` by the urgent-window loop is
strictly below `num_pieces` — unconditionally, with no proviso on `n`;
and every index passed by the normal-window loop is strictly below
`num_pieces` provided the requested span fits inside the remaining pieces
(`n + pl - 1 ≤ (num_pieces - s) * pl`).  Without that proviso the normal
loop runs past the last piece (refuted claim: see
`jump_out_of_range_cex`). -/
theorem jump_priority_in_range (t : Sched) (s n : Nat) (hs : s < t.np) :
    (∀ x ∈ (jump t s n).urgent, x.1 < t.np) ∧
    (n + t.pl - 1 ≤ (t.np - s) * t.pl →
      ∀ y ∈ (jump t s n).normal, y.1 < t.np) := by
  cases h : move_to_next_unfinished t s with
  | none =>
    rw [jump_eq_none t s n h]
    refine ⟨?_, ?_⟩
    · intro x hx
      simp at hx
    · intro _ y hy
      simp at hy
  | some c =>
    have hc := mtnu_some t h
    have htail := urgentLoop_tail_le t (0x200000 + 1) 0 c
    rw [jump_eq_some t s n c h]
    by_cases hcp : (urgentLoop t (0x200000 + 1) 0 c).completed
    · rw [if_pos hcp]
      refine ⟨?_, ?_⟩
      · intro x hx
        exact (urgentLoop_calls t (0x200000 + 1) 0 c x hx).2.2.2
      · intro hspan y hy
        have hyy := normalLoop_calls t n (n + t.pl)
          (((urgentLoop t (0x200000 + 1) 0 c).tail - s) * t.pl)
          (urgentLoop t (0x200000 + 1) 0 c).tail y hy
        have hst : s ≤ (urgentLoop t (0x200000 + 1) 0 c).tail := by omega
        have hty : (urgentLoop t (0x200000 + 1) 0 c).tail ≤ y.1 := hyy.2.1
        have hdist : ((urgentLoop t (0x200000 + 1) 0 c).tail - s) * t.pl +
            (y.1 - (urgentLoop t (0x200000 + 1) 0 c).tail) * t.pl
            = (y.1 - s) * t.pl := by
          rw [← Nat.add_mul]
          congr 1
          omega
        have hlt : (y.1 - s) * t.pl < (t.np - s) * t.pl := by omega
        have hy1 : y.1 - s < t.np - s :=
          lt_of_mul_lt_mul_right hlt (Nat.zero_le _)
        omega
    · rw [if_neg hcp]
      refine ⟨?_, ?_⟩
      · intro x hx
        exact (urgentLoop_calls t (0x200000 + 1) 0 c x hx).2.2.2
      · intro _ y hy
        simp at hy

/-- C10 (counterexample to the claim as stated): a torrent with a single
2 MiB piece, nothing downloaded, `jump(0, 2)` (a 2-byte read with
`0 ≤ s = 0 < num_pieces = 1`): the urgent loop consumes piece 0 and
completes its byte budget, and the normal loop then calls
`piece_priority(1, 1)` — piece index 1 does not exist. -/
theorem jump_out_of_range_cex :
    (jump tOnePiece 0 2).normal = [(1, 1)] ∧ ¬ (1 < tOnePiece.np) := by decide

/-- C10 witness: the unconditional urgent bound applied to the
counterexample's own span-violating call `jump(0, 2)` on the 1-piece
torrent, and both bounds applied to a 5-byte request on two 2 MiB pieces,
which satisfies the normal-window proviso. -/
theorem jump_priority_in_range_witness :
    (0 : Nat) < tOnePiece.np ∧
    ((0 : Nat) < tTwoPiece.np ∧ (1 : Nat) < tTwoPiece.np) :=
  ⟨(jump_priority_in_range tOnePiece 0 2 (by decide)).1 (0, 7) (by decide),
   (jump_priority_in_range tTwoPiece 0 5 (by decide)).1 (0, 7) (by decide),
   (jump_priority_in_range tTwoPiece 0 5 (by decide)).2 (by decide) (1, 1)
      (by decide)⟩

/-! ## Claim C8: the cursor never revisits confirmed pieces -/

/-- "A downloaded piece stays downloaded": every piece the earlier
`have_piece` snapshot reports downloaded, the later snapshot also reports
downloaded. -/
def monoHv (f g : Nat → Bool) : Prop := ∀ p, f p = true → g p = true

/-- C8: assuming `have_piece` is monotone in time (`List.Pairwise monoHv`
over the snapshots), after any sequence of `advance()` calls (`pre`
followed by one more with snapshot `hv`), whenever the final `advance()`
moves the cursor, the piece it moves to was not downloaded at the time of
any prior `advance()` call: `advance` only ever moves the cursor to a
piece that `move_to_next_unfinished` reports undownloaded *now*, and
monotonicity pushes that back to every earlier snapshot. -/
theorem advance_no_revisit (np pl : Nat) (hpl : 0 < pl) (c0 : Nat)
    (pre : List (Nat → Bool)) (hv : Nat → Bool)
    (hmono : List.Pairwise monoHv (pre ++ [hv]))
    (hmove : advanceCursor ⟨np, pl, hv, hpl⟩ (runAdvances np pl hpl pre c0) ≠
      runAdvances np pl hpl pre c0) :
    ∀ f ∈ pre,
      f (advanceCursor ⟨np, pl, hv, hpl⟩ (runAdvances np pl hpl pre c0)) = false := by
  intro f hf
  have hcur : ∀ c : Nat, advanceCursor ⟨np, pl, hv, hpl⟩ c =
      (match move_to_next_unfinished ⟨np, pl, hv, hpl⟩ c with
        | some c2 => c2
        | none => c) := by
    intro c
    unfold advanceCursor advance
    rw [jump_cursor]
  cases h : move_to_next_unfinished ⟨np, pl, hv, hpl⟩
      (runAdvances np pl hpl pre c0) with
  | none =>
    rw [hcur _, h] at hmove
    exact absurd rfl hmove
  | some c2 =>
    rw [hcur _, h]
    dsimp only
    have hvc2 : hv c2 = false := (mtnu_some _ h).2.2
    have hmf : monoHv f hv := by
      rcases List.pairwise_append.mp hmono with ⟨_, _, hcross⟩
      exact hcross f hf hv (by simp)
    cases hfc : f c2 with
    | false => rfl
    | true => exact absurd (hmf c2 hfc) (by rw [hvc2]; simp)

/-- C8 witness: one prior `advance()` with nothing downloaded leaves the
cursor at 0; a second `advance()` after piece 0 completes moves it to 1,
a piece the prior snapshot had not confirmed. -/
theorem advance_no_revisit_witness :
    hvNone (advanceCursor ⟨2, 0x200000, hvZero, by decide⟩
      (runAdvances 2 0x200000 (by decide) [hvNone] 0)) = false :=
  advance_no_revisit 2 0x200000 (by decide) 0 [hvNone] hvZero
    (by
      show List.Pairwise monoHv [hvNone, hvZero]
      constructor
      · intro g hg
        simp only [List.mem_singleton] at hg
        subst hg
        intro p hp
        simp [hvNone] at hp
      · exact List.pairwise_singleton _ _)
    (by decide) hvNone (by simp)

/-! ## Claim C9: handling a repeated metadata notification -/

/-- The last `files["/" + path] = make_pair(file_at(i), i)` write among the
indexed file entries whose path matches key `k` (later iterations
overwrite earlier ones, as `std::map::operator[]` assignment does). -/
def lastWrite : List (Nat × TorrentFile) → List String → Option (Nat × Nat)
  | [], _ => none
  | e :: l, k =>
    match lastWrite l k with
    | some v => some v
    | none => if k = e.2.path then some (e.2.size, e.1) else none

/-- The `(parent, child)` pairs the `strtok` walk of one path inserts into
`dirs`. -/
def dirPairs : List String → List String → List (List String × String)
  | _, [] => []
  | parent, x :: rest => (parent, x) :: dirPairs (parent ++ [x]) rest

/-- Whether some file entry's path walk inserts `child` into
`dirs[parent]`. -/
def dirsAdded : List (Nat × TorrentFile) → List String → String → Bool
  | [], _, _ => false
  | e :: l, parent, child =>
    decide ((parent, child) ∈ dirPairs [] e.2.path) || dirsAdded l parent child

theorem addDirs_eq (path : List String) : ∀ (parent : List String)
    (d : List String → String → Bool) (p : List String) (c : String),
    addDirs d parent path p c =
      (decide ((p, c) ∈ dirPairs parent path) || d p c) := by
  induction path with
  | nil =>
    intro parent d p c
    simp [addDirs, dirPairs]
  | cons x rest ih =>
    intro parent d p c
    simp only [addDirs, dirPairs]
    rw [ih]
    by_cases hpc : p = parent ∧ c = x
    · rcases hpc with ⟨h1, h2⟩
      subst h1
      subst h2
      simp [List.mem_cons]
    · have hne : ¬ ((p, c) = (parent, x)) := by
        intro he
        exact hpc ⟨congrArg Prod.fst he, congrArg Prod.snd he⟩
      rw [if_neg hpc]
      simp [List.mem_cons, hne]

theorem setupNS_files_aux : ∀ (l : List (Nat × TorrentFile)) (ns : NS)
    (k : List String),
    ((l.foldl setupFile ns).files k) =
      (match lastWrite l k with
        | some v => some v
        | none => ns.files k) := by
  intro l
  induction l with
  | nil =>
    intro ns k
    rfl
  | cons e l ih =>
    intro ns k
    simp only [List.foldl_cons, lastWrite]
    rw [ih]
    cases h : lastWrite l k with
    | some v => rfl
    | none =>
      by_cases hk : k = e.2.path
      · simp [setupFile, hk]
      · simp [setupFile, hk]

theorem setupNS_dirs_aux : ∀ (l : List (Nat × TorrentFile)) (ns : NS)
    (p : List String) (c : String),
    ((l.foldl setupFile ns).dirs p c) = (dirsAdded l p c || ns.dirs p c) := by
  intro l
  induction l with
  | nil =>
    intro ns p c
    simp [dirsAdded]
  | cons e l ih =>
    intro ns p c
    simp only [List.foldl_cons, dirsAdded]
    rw [ih]
    have h1 : (setupFile ns e).dirs p c =
        (decide ((p, c) ∈ dirPairs [] e.2.path) || ns.dirs p c) :=
      addDirs_eq e.2.path [] ns.dirs p c
    rw [h1]
    cases dirsAdded l p c <;> cases ns.dirs p c <;> simp

/-- C9 (amended): re-running `setup()` on an already-built namespace
leaves every entry of the `files` map and every child set of the `dirs`
map unchanged — the map rebuild is idempotent (the same keys are assigned
the same values, the same children re-inserted).  But the handler is not a
no-op: `handle_metadata_received_alert` calls `setup()` unconditionally
(there is no "already built" guard), re-printing the banner, re-applying
the rate limits and re-zeroing every file priority (see
`metadata_received_cex`). -/
theorem setup_idempotent (ti : TorrentInfo) (ns : NS) :
    (∀ k, (setupNS ti (setupNS ti ns)).files k = (setupNS ti ns).files k) ∧
    (∀ p c, (setupNS ti (setupNS ti ns)).dirs p c = (setupNS ti ns).dirs p c) := by
  constructor
  · intro k
    unfold setupNS
    rw [setupNS_files_aux, setupNS_files_aux]
    cases lastWrite ti.files.enum k <;> rfl
  · intro p c
    unfold setupNS
    rw [setupNS_dirs_aux, setupNS_dirs_aux]
    cases dirsAdded ti.files.enum p c <;> simp

/-- C9 (counterexample to the claim as stated): with the namespace already
built from a one-file torrent, handling a further metadata-received alert
is not a no-op: the handler runs `setup()` again and re-issues its engine
calls — the two rate limits and `file_priority(0, 0)` — zeroing file
priorities; a no-op would issue none. -/
theorem metadata_received_cex :
    (handle_metadata_received_alert tiOne (setupNS tiOne nsEmpty)).2 =
      [EngineCall.set_download_limit 655360, EngineCall.set_upload_limit 655360,
        EngineCall.file_priority 0 0] ∧
    (handle_metadata_received_alert tiOne (setupNS tiOne nsEmpty)).2 ≠ [] := by
  decide

end btfs
